import Mathlib

/-!
Verification of the curve-fitting, linear-solver and crossfade-processing core
of the lsp-plugins-shaper plugin.

The source functions of `src/main/plug/shaper.cpp` and the plugin metadata of
`src/main/meta/shaper.cpp` / `include/private/meta/shaper.h` are shallowly
embedded below.  Machine floating-point values are modelled by exact rationals
(`ℚ`); size_t counters by `ℕ`.  The flat `double *m` matrix buffer of the C
code is modelled as a function `ℕ → ℕ → ℚ` sending (row, column) to the stored
value; the augmented matrix for order `n` occupies rows `0..n-1` and columns
`0..n` (`rs = n + 1` doubles per row in the C layout).
-/

namespace Shaper

/-- meta::shaper::ORDER_MIN (include/private/meta/shaper.h:37). -/
def ORDER_MIN : ℕ := 4

/-- meta::shaper::ORDER_MAX (include/private/meta/shaper.h:38). -/
def ORDER_MAX : ℕ := 12

/-- BUFFER_SIZE = 0x200 (src/main/plug/shaper.cpp:41). -/
def BUFFER_SIZE : ℕ := 0x200

/-- meta::shaper::SHIFT_MIN = 0.1 (include/private/meta/shaper.h:49), as an exact rational. -/
def SHIFT_MIN : ℚ := 1/10

/-- meta::shaper::SHIFT_MAX = 0.9 (include/private/meta/shaper.h:50). -/
def SHIFT_MAX : ℚ := 9/10

/-- meta::shaper::SCALE_MIN = 0.25 (include/private/meta/shaper.h:54). -/
def SCALE_MIN : ℚ := 1/4

/-- meta::shaper::SCALE_MAX = 1.75 (include/private/meta/shaper.h:55). -/
def SCALE_MAX : ℚ := 7/4

/-- The approximation_orders combo list (src/main/meta/shaper.cpp:57-70):
ten selectable entries, port values 0..9. -/
def approximation_orders : List (String × String) :=
  [ ("3rd order",  "shaper.approximation.3rd_order"),
    ("4th order",  "shaper.approximation.4th_order"),
    ("5th order",  "shaper.approximation.5th_order"),
    ("6th order",  "shaper.approximation.6th_order"),
    ("7th order",  "shaper.approximation.7th_order"),
    ("8th order",  "shaper.approximation.8th_order"),
    ("9th order",  "shaper.approximation.9th_order"),
    ("10th order", "shaper.approximation.10th_order"),
    ("11th order", "shaper.approximation.11th_order"),
    ("12th order", "shaper.approximation.12th_order") ]

/-- The polynomial order computed by shaper::update_settings from the order
port value: `order = meta::shaper::ORDER_MIN + pOrder->value() + 1`
(src/main/plug/shaper.cpp:535). -/
def settings_order (v : ℕ) : ℕ := ORDER_MIN + v + 1

/-- Number of doubles in the vMatrix buffer allocated by shaper::init:
`ORDER_MAX * (ORDER_MAX + 1)` (src/main/plug/shaper.cpp:328). -/
def matrix_doubles : ℕ := ORDER_MAX * (ORDER_MAX + 1)

/-- Number of floats in each of the vOldRoots / vRoots buffers allocated by
shaper::init: `ORDER_MAX` (src/main/plug/shaper.cpp:329). -/
def roots_floats : ℕ := ORDER_MAX

/-- 2D point, struct point_t (src/main/plug/shaper.cpp:43-46). -/
structure point_t where
  x : ℚ
  y : ℚ
  deriving DecidableEq

/-- lsp::lsp_limit(v, min, max): clamp v into [min, max]. -/
def lsp_limit (v lo hi : ℚ) : ℚ :=
  if v < lo then lo else if v > hi then hi else v

/-- make_bezier (src/main/plug/shaper.cpp:48-57): the four control points
dst[0..3] of the cubic Bezier built from shifts (a, b) and scales (s1, s2). -/
def make_bezier (a b s1 s2 : ℚ) : List point_t :=
  let v1 : point_t := ⟨a, b⟩
  let v2 : point_t := ⟨a - 1, b - 1⟩
  [ ⟨0, 0⟩,
    ⟨v1.x * s1, v1.y * s1⟩,
    ⟨1 + v2.x * s2, 1 + v2.y * s2⟩,
    ⟨1, 1⟩ ]

/-- One de Casteljau reduction step of bezier_eval's inner loop
(src/main/plug/shaper.cpp:66-70): `xp[i-1] = sp[i]*t + sp[i-1]*(1-t)`. -/
def bezier_step (t : ℚ) (sp : List point_t) : List point_t :=
  List.zipWith (fun p q => ⟨q.x * t + p.x * (1 - t), q.y * t + p.y * (1 - t)⟩) sp sp.tail

/-- The outer loop of bezier_eval, running `np - 1` reduction steps. -/
def bezier_reduce (t : ℚ) : ℕ → List point_t → List point_t
  | 0, sp => sp
  | k + 1, sp => bezier_reduce t k (bezier_step t sp)

/-- bezier_eval (src/main/plug/shaper.cpp:59-76): repeated linear
interpolation of np control points at parameter t. -/
def bezier_eval (vp : List point_t) (np : ℕ) (t : ℚ) : point_t :=
  (bezier_reduce t (np - 1) vp).headD ⟨0, 0⟩

/-- First division denominator in make_matrix: the clamped horizontal shift
`a` of `k1 = b / a` (src/main/plug/shaper.cpp:81,84). -/
def mm_den1 (a : ℚ) : ℚ := lsp_limit a 0 1

/-- Second division denominator in make_matrix: `1 - a` (clamped `a`) of
`k2 = (1 - b) / (1 - a)` (src/main/plug/shaper.cpp:81,85). -/
def mm_den2 (a : ℚ) : ℚ := 1 - lsp_limit a 0 1

/-- make_matrix (src/main/plug/shaper.cpp:78-135): the augmented constraint
matrix for a polynomial of order n, as a (row, column) function.
Rows beyond `n` and columns beyond `n` hold 0 (the zero fill at lines 90-91
covers exactly `n * (n+1)` doubles).
row 0: y(0) = 0; row 1: y'(0) = k1; row 2: y'(1) = k2; row 3: y(1) = 1;
rows 4+j: power-series constraint at the Bezier sample `t = (j+1)/(n-3)`. -/
def make_matrix (bc : List point_t) (np : ℕ) (a b : ℚ) (n : ℕ) : ℕ → ℕ → ℚ :=
  let b' := lsp_limit b 0 1
  let k1 := b' / mm_den1 a
  let k2 := (1 - b') / mm_den2 a
  let s : ℚ := 1 / ((n - 3 : ℕ) : ℚ)
  fun r c =>
    if r < n ∧ c ≤ n then
      if r = 0 then (if c = 1 then 1 else 0)
      else if r = 1 then (if c = 0 then k1 else if c = 2 then 1 else 0)
      else if r = 2 then (if c = 0 then k2 else ((c - 1 : ℕ) : ℚ))
      else if r = 3 then 1
      else
        let t := ((r - 3 : ℕ) : ℚ) * s
        let p := bezier_eval bc np t
        if c = 0 then p.y else p.x ^ (c - 1)
    else 0

/-- The right-hand-side constant of each constraint row, written from the
specification text (spec.md section 3, ConstraintMatrix): row 0 encodes
y(0)=0, row 1 the derivative constraint k1 at 0, row 2 the derivative
constraint k2 at 1, row 3 encodes y(1)=1, and the remaining rows carry the
sampled Bezier y-value.  Used to compare the stored layout against the
spec's claimed column for the constant. -/
def spec_row_constant (bc : List point_t) (np : ℕ) (a b : ℚ) (n : ℕ) (r : ℕ) : ℚ :=
  if r = 0 then 0
  else if r = 1 then lsp_limit b 0 1 / mm_den1 a
  else if r = 2 then (1 - lsp_limit b 0 1) / mm_den2 a
  else if r = 3 then 1
  else (bezier_eval bc np (((r - 3 : ℕ) : ℚ) * (1 / ((n - 3 : ℕ) : ℚ)))).y

/-- eval_equation (src/main/plug/shaper.cpp:201-214): sign extraction,
linear extrapolation for |x| >= 1, Horner evaluation otherwise. -/
def eval_equation (v : List ℚ) (n : ℕ) (tan x : ℚ) : ℚ :=
  let s : ℚ := if x < 0 then -1 else 1
  let ax := |x|
  if 1 ≤ ax then (1 + (ax - 1) * tan) * s
  else
    let y := (List.range (n - 1)).foldl (fun y i => y * ax + v.getD (i + 1) 0) (v.getD 0 0)
    y * s

/-- Indices (offsets into the flat double buffer) written by make_matrix
for order n, in program order: the zero fill (lines 90-91), then row 0
(lines 96-97), row 1 (101-103), row 2 (107-109), row 3 (113-114) and the
filler rows (120-134); `rs = n + 1`. -/
def make_matrix_writes (n : ℕ) : List ℕ :=
  let rs := n + 1
  List.range (n * rs)
  ++ [0, 1]
  ++ [rs, rs + 1, rs + 2]
  ++ (2 * rs :: (List.range n).map (fun i => 2 * rs + i + 1))
  ++ (List.range rs).map (fun i => 3 * rs + i)
  ++ (List.range (n - 4)).flatMap
       (fun j => (4 + j) * rs :: (List.range n).map (fun i => (4 + j) * rs + i + 1))

/-- Indices written into the roots buffer by solve_matrix for order n:
`v[n - i - 1]` for `i = 0..n-1` (src/main/plug/shaper.cpp:189-198). -/
def solve_matrix_writes (n : ℕ) : List ℕ :=
  (List.range n).map (fun i => n - i - 1)

/-- swap_row (src/main/plug/shaper.cpp:137-145): exchange the first `rs`
entries of rows p and q. -/
def swap_row (M : ℕ → ℕ → ℚ) (p q rs : ℕ) : ℕ → ℕ → ℚ :=
  fun a c =>
    if c < rs then
      if a = p then M q c else if a = q then M p c else M a c
    else M a c

/-- The pivot search of triangulate_matrix (src/main/plug/shaper.cpp:164-171):
scan rows i-1, i-2, ..., 0 for the first row with a nonzero entry in
column i+1. -/
def find_swap (M : ℕ → ℕ → ℚ) (i : ℕ) : Option ℕ :=
  (List.range i).reverse.find? (fun a => decide (M a (i + 1) ≠ 0))

/-- The conditional row swap of triangulate_matrix (lines 162-172): when the
pivot entry of row i is zero, swap row i with the found row (all rs = n+1
entries). -/
def pivot_swap (n i : ℕ) (M : ℕ → ℕ → ℚ) : ℕ → ℕ → ℚ :=
  if M i (i + 1) = 0 then
    match find_swap M i with
    | some a => swap_row M i a (n + 1)
    | none => M
  else M

/-- The elimination loop of triangulate_matrix (lines 175-181): from every
row above row i whose column-(i+1) entry is nonzero, subtract
`k = xr[i+1] / r[i+1]` times row i on the first i+2 columns
(subtract, lines 147-151). -/
def elim_rows (i : ℕ) (M : ℕ → ℕ → ℚ) : ℕ → ℕ → ℚ :=
  fun a c =>
    if a < i ∧ M a (i + 1) ≠ 0 ∧ c < i + 2 then
      M a c - (M a (i + 1) / M i (i + 1)) * M i c
    else M a c

/-- One iteration of the triangulate_matrix outer loop for row i. -/
def tri_step (n i : ℕ) (M : ℕ → ℕ → ℚ) : ℕ → ℕ → ℚ :=
  elim_rows i (pivot_swap n i M)

/-- The outer loop `for (i = n-1; i > 0; --i)` of triangulate_matrix
(src/main/plug/shaper.cpp:157): the argument is the current loop counter. -/
def tri_loop (n : ℕ) : ℕ → (ℕ → ℕ → ℚ) → (ℕ → ℕ → ℚ)
  | 0, M => M
  | i + 1, M => tri_loop n i (tri_step n (i + 1) M)

/-- triangulate_matrix (src/main/plug/shaper.cpp:153-183). -/
def triangulate_matrix (M : ℕ → ℕ → ℚ) (n : ℕ) : ℕ → ℕ → ℚ :=
  tri_loop n (n - 1) M

/-- Generic helper: build a list whose m-th entry is computed from the list
of all previous entries, mirroring an in-place array-filling loop. -/
def build_list (F : ℕ → List ℚ → ℚ) : ℕ → List ℚ
  | 0 => []
  | m + 1 => build_list F m ++ [F m (build_list F m)]

/-- The body of the solve_matrix loop (src/main/plug/shaper.cpp:189-197) at
iteration i: `s = r[0] - sum_j r[j+1] * v[n-j-1]` and the stored value
`s / r[i+1]`; `prev.getD j 0` is the value written at iteration j. -/
def solve_entry (M : ℕ → ℕ → ℚ) (i : ℕ) (prev : List ℚ) : ℚ :=
  (M i 0 - ∑ j ∈ Finset.range i, M i (j + 1) * prev.getD j 0) / M i (i + 1)

/-- The value computed by solve_matrix's iteration i (stored at v[n-i-1]). -/
def solve_fun (M : ℕ → ℕ → ℚ) (n i : ℕ) : ℚ :=
  (build_list (solve_entry M) n).getD i 0

/-- solve_matrix (src/main/plug/shaper.cpp:185-199): the solution vector v
of length n, with `v[n - i - 1]` holding the value of iteration i. -/
def solve_matrix (M : ℕ → ℕ → ℚ) (n : ℕ) : List ℚ :=
  (List.range n).map (fun p => solve_fun M n (n - p - 1))

/-- The linear functional of row a over the coefficient columns 1..n:
column j+1 multiplies the unknown `v[n-j-1]` (written `y j` here), exactly
as consumed by solve_matrix's back-substitution. -/
def row_sum (M : ℕ → ℕ → ℚ) (n a : ℕ) (y : ℕ → ℚ) : ℚ :=
  ∑ j ∈ Finset.range n, M a (j + 1) * y j

/-- y satisfies every row equation of the augmented matrix M (the constant
of row a being the stored M a 0). -/
def Sats (M : ℕ → ℕ → ℚ) (n : ℕ) (y : ℕ → ℚ) : Prop :=
  ∀ a, a < n → row_sum M n a y = M a 0

/-- y satisfies the homogeneous system of coefficient rows of M. -/
def HSats (M : ℕ → ℕ → ℚ) (n : ℕ) (y : ℕ → ℚ) : Prop :=
  ∀ a, a < n → row_sum M n a y = 0

/-- The n-by-n coefficient block (columns 1..n) of M is nonsingular: the
homogeneous system has only the zero solution. -/
def nonsingular (M : ℕ → ℕ → ℚ) (n : ℕ) : Prop :=
  ∀ y : ℕ → ℚ, HSats M n y → ∀ j, j < n → y j = 0

/-- The curve state used by shaper::process: the current and previous
roots/order/tangent and the one-shot crossfade flag
(fields nOldOrder, nOrder, bCrossfade, vOldRoots, vRoots, fOldTangent,
fTangent of plugins::shaper). -/
structure shaper_state where
  old_roots : List ℚ
  old_order : ℕ
  old_tangent : ℚ
  roots : List ℚ
  order : ℕ
  tangent : ℚ
  crossfade : Bool

/-- The per-sub-block curve application of shaper::process
(src/main/plug/shaper.cpp:606-622) on the oversampled buffer: when a
crossfade is pending, blend the old and new curves with `t = j * k`,
`k = 1 / ovs_to_do`; otherwise apply only the current curve. -/
def shape_block (st : shaper_state) (buf : List ℚ) : List ℚ :=
  if st.crossfade then
    let k : ℚ := 1 / (buf.length : ℚ)
    (List.range buf.length).map (fun j =>
      let s := buf.getD j 0
      let t : ℚ := (j : ℚ) * k
      let s_old := eval_equation st.old_roots st.old_order st.old_tangent s
      let s_new := eval_equation st.roots st.order st.tangent s
      s_old + (s_new - s_old) * t)
  else
    buf.map (fun s => eval_equation st.roots st.order st.tangent s)

/-- The sub-block loop of shaper::process (src/main/plug/shaper.cpp:587-664)
restricted to the curve application: each element of `bufs` is the
oversampled buffer of one sub-block; after every sub-block the crossfade
flag is cleared (line 653). Returns the processed buffers and final state. -/
def process_blocks (st : shaper_state) : List (List ℚ) → List (List ℚ) × shaper_state
  | [] => ([], st)
  | b :: rest =>
      let out := shape_block st b
      let st' := { st with crossfade := false }
      let res := process_blocks st' rest
      (out :: res.1, res.2)

/-- The sub-block sizes `to_do = min(samples - offset, BUFFER_SIZE)` taken
by the loop of shaper::process (src/main/plug/shaper.cpp:587-589,663). -/
def chunk_sizes (samples : ℕ) : List ℕ :=
  if _h : samples = 0 then []
  else Nat.min samples BUFFER_SIZE :: chunk_sizes (samples - Nat.min samples BUFFER_SIZE)
  termination_by samples
  decreasing_by
    simp [BUFFER_SIZE]
    omega

/-- Shape invariant of the triangulation: when the outer loop counter has
reached i (iterations n-1, ..., i+1 already performed), every entry in a
column c ≤ n with c ≥ i+2 and c ≥ a+2 is zero.  At i = 0 this is the final
lower-triangular shape: row a has nonzero coefficient entries only in
columns 1..a+1. -/
def Inv (M : ℕ → ℕ → ℚ) (n i : ℕ) : Prop :=
  ∀ a c, a < n → c ≤ n → i + 2 ≤ c → a + 2 ≤ c → M a c = 0

/-- The factor by which row i is subtracted from row a during elimination
step i (zero for rows the loop skips). -/
def qcoef (i : ℕ) (N : ℕ → ℕ → ℚ) (a : ℕ) : ℚ :=
  if a < i ∧ N a (i + 1) ≠ 0 then N a (i + 1) / N i (i + 1) else 0

/-- Entry m of a kernel vector for a lower-triangular coefficient block with
a zero pivot at row i0: zero below i0, one at i0, forward-substituted
above. -/
def ker_entry (T : ℕ → ℕ → ℚ) (i0 : ℕ) (m : ℕ) (prev : List ℚ) : ℚ :=
  if m < i0 then 0
  else if m = i0 then 1
  else -(∑ c ∈ Finset.range m, T m (c + 1) * prev.getD c 0) / T m (m + 1)

/-- The kernel vector built from ker_entry. -/
def ker_fun (T : ℕ → ℕ → ℚ) (i0 n j : ℕ) : ℚ :=
  (build_list (ker_entry T i0) n).getD j 0

/-- A concrete already-triangular 2-row augmented matrix, rows
(5, 1, 0) and (0, 7, 1). -/
def last_col_a : ℕ → ℕ → ℚ := fun r c =>
  if r = 0 then (if c = 0 then 5 else if c = 1 then 1 else 0)
  else if r = 1 then (if c = 1 then 7 else if c = 2 then 1 else 0)
  else 0

/-- The same matrix with the last column of row 0 changed from 0 to 99. -/
def last_col_b : ℕ → ℕ → ℚ := fun r c =>
  if r = 0 ∧ c = 2 then 99 else last_col_a r c

/-- A concrete nonsingular 2-row augmented system: rows (2, 1, 0) and
(3, 0, 1); its coefficient block is the identity. -/
def mat_ns : ℕ → ℕ → ℚ := fun r c =>
  if r = 0 then (if c = 0 then 2 else if c = 1 then 1 else 0)
  else if r = 1 then (if c = 0 then 3 else if c = 2 then 1 else 0)
  else 0

/-! ## C1: the selectable polynomial orders -/

/-- C1 counterexample: the last entry of the approximation_orders list
(port value 9, "12th order") yields order = 14, outside the claimed range
[ORDER_MIN+1, ORDER_MAX+1] = [5, 13]. -/
theorem update_settings_order_max_entry :
    9 < approximation_orders.length ∧ settings_order 9 = 14 ∧
      ¬ settings_order 9 ≤ ORDER_MAX + 1 := by
  decide

/-- C1 (amended): for every selectable value of the order port, the order
computed by update_settings lies in [ORDER_MIN+1, ORDER_MAX+2] = [5, 14]. -/
theorem update_settings_order_range (v : ℕ) (hv : v < approximation_orders.length) :
    ORDER_MIN + 1 ≤ settings_order v ∧ settings_order v ≤ ORDER_MAX + 2 := by
  have hlen : approximation_orders.length = 10 := by decide
  rw [hlen] at hv
  unfold settings_order ORDER_MIN ORDER_MAX
  omega

/-- Witness for update_settings_order_range at port value 0. -/
theorem update_settings_order_range_witness :
    0 < approximation_orders.length ∧
      (ORDER_MIN + 1 ≤ settings_order 0 ∧ settings_order 0 ≤ ORDER_MAX + 2) :=
  ⟨by decide, update_settings_order_range 0 (by decide)⟩

/-! ## C2: buffer bounds of the curve rebuild -/

/-- C2: at the selectable port value 9 the computed order is 14, and the
curve rebuild then writes the flat matrix index 209 = 14*15 - 1, which is
not below the allocated matrix_doubles = ORDER_MAX*(ORDER_MAX+1) = 156,
and solve_matrix writes roots index 13, not below roots_floats = 12:
the claimed in-bounds property fails on the code. -/
theorem curve_rebuild_overflow_at_max_order :
    9 < approximation_orders.length ∧ settings_order 9 = 14 ∧
      209 ∈ make_matrix_writes 14 ∧ ¬ 209 < matrix_doubles ∧
      13 ∈ solve_matrix_writes 14 ∧ ¬ 13 < roots_floats := by
  decide

/-! ## C6: odd symmetry of the evaluator -/

/-- C6 counterexample: with coefficient vector [1], order 1, tangent 0 and
input x = 0, eval_equation(v, n, t, -x) = 1 but -eval_equation(v, n, t, x)
= -1, so the evaluator is not odd at x = 0 for every coefficient vector. -/
theorem eval_equation_odd_fails_at_zero :
    eval_equation [1] 1 0 (-(0 : ℚ)) ≠ - eval_equation [1] 1 0 (0 : ℚ) := by
  norm_num [eval_equation]

/-- C6 (amended): the evaluator is odd-symmetric at every nonzero input:
for every coefficient vector v, order n, tangent t and x ≠ 0,
eval_equation(v, n, t, -x) = -eval_equation(v, n, t, x). -/
theorem eval_equation_odd_nonzero (v : List ℚ) (n : ℕ) (t x : ℚ) (hx : x ≠ 0) :
    eval_equation v n t (-x) = - eval_equation v n t x := by
  rcases hx.lt_or_lt with h | h
  · have h1 : ¬ (-x) < 0 := by linarith
    simp only [eval_equation, abs_neg, if_pos h, if_neg h1]
    by_cases hax : 1 ≤ |x|
    · simp only [if_pos hax]; ring
    · simp only [if_neg hax]; ring
  · have h1 : (-x) < 0 := by linarith
    have h2 : ¬ x < 0 := by linarith
    simp only [eval_equation, abs_neg, if_pos h1, if_neg h2]
    by_cases hax : 1 ≤ |x|
    · simp only [if_pos hax]; ring
    · simp only [if_neg hax]; ring

/-- Witness for eval_equation_odd_nonzero at v = [1, 0], n = 2, t = 3,
x = 1/2. -/
theorem eval_equation_odd_nonzero_witness :
    (1/2 : ℚ) ≠ 0 ∧
      eval_equation [1, 0] 2 3 (-(1/2 : ℚ)) = - eval_equation [1, 0] 2 3 (1/2 : ℚ) :=
  ⟨by norm_num, eval_equation_odd_nonzero [1, 0] 2 3 (1/2) (by norm_num)⟩

/-! ## C7: linear extrapolation outside the unit interval -/

/-- C7: for |x| >= 1 the evaluator returns sign(x) * (1 + (|x| - 1) * t)
independently of the coefficients, and at x = 1 it returns exactly 1. -/
theorem eval_equation_extrapolation (v : List ℚ) (n : ℕ) (t x : ℚ) (hx : 1 ≤ |x|) :
    eval_equation v n t x = (if x < 0 then -1 else 1) * (1 + (|x| - 1) * t) ∧
      eval_equation v n t 1 = 1 := by
  constructor
  · simp only [eval_equation, if_pos hx]
    ring
  · have h1 : |(1 : ℚ)| = 1 := by norm_num
    simp only [eval_equation, h1, if_pos (le_refl (1 : ℚ))]
    norm_num

/-- Witness for eval_equation_extrapolation at v = [], n = 0, t = 2, x = -3:
the evaluator returns (-1) * (1 + 2*2) = -5 there. -/
theorem eval_equation_extrapolation_witness :
    1 ≤ |(-3 : ℚ)| ∧
      (eval_equation [] 0 2 (-3) = (if (-3 : ℚ) < 0 then -1 else 1) * (1 + (|(-3 : ℚ)| - 1) * 2) ∧
        eval_equation [] 0 2 1 = 1) :=
  ⟨by norm_num, eval_equation_extrapolation [] 0 2 (-3) (by norm_num)⟩

/-! ## C9: the Bezier control polygon -/

/-- C9 counterexample: at the in-range parameters hshift = vshift = 9/10,
bottom scale = top scale = 7/4, interior point 1 of make_bezier is
(63/40, 63/40), whose coordinates exceed 1 — the control points are not
clamped to [0, 1]. -/
theorem make_bezier_interior_exceeds_unit :
    SHIFT_MIN ≤ (9/10 : ℚ) ∧ (9/10 : ℚ) ≤ SHIFT_MAX ∧
      SCALE_MIN ≤ (7/4 : ℚ) ∧ (7/4 : ℚ) ≤ SCALE_MAX ∧
      ((make_bezier (9/10) (9/10) (7/4) (7/4)).getD 1 ⟨0, 0⟩).x = 63/40 ∧
      ¬ ((make_bezier (9/10) (9/10) (7/4) (7/4)).getD 1 ⟨0, 0⟩).x ≤ 1 := by
  refine ⟨by norm_num [SHIFT_MIN], by norm_num [SHIFT_MAX], by norm_num [SCALE_MIN],
    by norm_num [SCALE_MAX], ?_, ?_⟩ <;> norm_num [make_bezier]

/-- C9 (amended): the control polygon has its endpoints fixed at (0,0) and
(1,1); the two interior points are derived from the shift and scale
parameters without any clamping, and under the port ranges their
coordinates lie in [1/40, 63/40] (point 1) and [-23/40, 39/40] (point 2) —
intervals that are not contained in [0, 1]. -/
theorem make_bezier_endpoints_interior (a b s1 s2 : ℚ)
    (ha1 : SHIFT_MIN ≤ a) (ha2 : a ≤ SHIFT_MAX)
    (hb1 : SHIFT_MIN ≤ b) (hb2 : b ≤ SHIFT_MAX)
    (hc1 : SCALE_MIN ≤ s1) (hc2 : s1 ≤ SCALE_MAX)
    (hd1 : SCALE_MIN ≤ s2) (hd2 : s2 ≤ SCALE_MAX) :
    (make_bezier a b s1 s2).getD 0 ⟨0, 0⟩ = ⟨0, 0⟩ ∧
      (make_bezier a b s1 s2).getD 3 ⟨0, 0⟩ = ⟨1, 1⟩ ∧
      (make_bezier a b s1 s2).getD 1 ⟨0, 0⟩ = ⟨a * s1, b * s1⟩ ∧
      (make_bezier a b s1 s2).getD 2 ⟨0, 0⟩ = ⟨1 + (a - 1) * s2, 1 + (b - 1) * s2⟩ ∧
      (1/40 ≤ a * s1 ∧ a * s1 ≤ 63/40) ∧ (1/40 ≤ b * s1 ∧ b * s1 ≤ 63/40) ∧
      (-23/40 ≤ 1 + (a - 1) * s2 ∧ 1 + (a - 1) * s2 ≤ 39/40) ∧
      (-23/40 ≤ 1 + (b - 1) * s2 ∧ 1 + (b - 1) * s2 ≤ 39/40) := by
  have ha1' : (1/10 : ℚ) ≤ a := ha1
  have ha2' : a ≤ (9/10 : ℚ) := ha2
  have hb1' : (1/10 : ℚ) ≤ b := hb1
  have hb2' : b ≤ (9/10 : ℚ) := hb2
  have hc1' : (1/4 : ℚ) ≤ s1 := hc1
  have hc2' : s1 ≤ (7/4 : ℚ) := hc2
  have hd1' : (1/4 : ℚ) ≤ s2 := hd1
  have hd2' : s2 ≤ (7/4 : ℚ) := hd2
  refine ⟨rfl, rfl, rfl, rfl, ⟨?_, ?_⟩, ⟨?_, ?_⟩, ⟨?_, ?_⟩, ⟨?_, ?_⟩⟩ <;> nlinarith

/-- Witness for make_bezier_endpoints_interior at a = b = 1/2, s1 = s2 = 1. -/
theorem make_bezier_endpoints_interior_witness :
    (SHIFT_MIN ≤ (1/2 : ℚ) ∧ (1/2 : ℚ) ≤ SHIFT_MAX ∧
      SCALE_MIN ≤ (1 : ℚ) ∧ (1 : ℚ) ≤ SCALE_MAX) ∧
      ((make_bezier (1/2) (1/2) 1 1).getD 0 ⟨0, 0⟩ = ⟨0, 0⟩ ∧
        (make_bezier (1/2) (1/2) 1 1).getD 3 ⟨0, 0⟩ = ⟨1, 1⟩ ∧
        (make_bezier (1/2) (1/2) 1 1).getD 1 ⟨0, 0⟩ = ⟨(1/2 : ℚ) * 1, (1/2 : ℚ) * 1⟩ ∧
        (make_bezier (1/2) (1/2) 1 1).getD 2 ⟨0, 0⟩ =
          ⟨1 + ((1/2 : ℚ) - 1) * 1, 1 + ((1/2 : ℚ) - 1) * 1⟩ ∧
        (1/40 ≤ (1/2 : ℚ) * 1 ∧ (1/2 : ℚ) * 1 ≤ 63/40) ∧
        (1/40 ≤ (1/2 : ℚ) * 1 ∧ (1/2 : ℚ) * 1 ≤ 63/40) ∧
        (-23/40 ≤ 1 + ((1/2 : ℚ) - 1) * 1 ∧ 1 + ((1/2 : ℚ) - 1) * 1 ≤ 39/40) ∧
        (-23/40 ≤ 1 + ((1/2 : ℚ) - 1) * 1 ∧ 1 + ((1/2 : ℚ) - 1) * 1 ≤ 39/40)) :=
  ⟨⟨by norm_num [SHIFT_MIN], by norm_num [SHIFT_MAX], by norm_num [SCALE_MIN],
      by norm_num [SCALE_MAX]⟩,
    make_bezier_endpoints_interior (1/2) (1/2) 1 1
      (by norm_num [SHIFT_MIN]) (by norm_num [SHIFT_MAX])
      (by norm_num [SHIFT_MIN]) (by norm_num [SHIFT_MAX])
      (by norm_num [SCALE_MIN]) (by norm_num [SCALE_MAX])
      (by norm_num [SCALE_MIN]) (by norm_num [SCALE_MAX])⟩

/-! ## C10: the make_matrix divisions -/

/-- C10: when the horizontal and vertical shifts lie in the port range
[SHIFT_MIN, SHIFT_MAX] = [1/10, 9/10], the denominators of the two
divisions `k1 = b/a` and `k2 = (1-b)/(1-a)` in make_matrix (computed after
the clamp of the shifts to [0, 1]) are nonzero. -/
theorem make_matrix_denominators_nonzero (a b : ℚ)
    (h1 : SHIFT_MIN ≤ a) (h2 : a ≤ SHIFT_MAX)
    (_h3 : SHIFT_MIN ≤ b) (_h4 : b ≤ SHIFT_MAX) :
    mm_den1 a ≠ 0 ∧ mm_den2 a ≠ 0 := by
  have h1 : (1/10 : ℚ) ≤ a := h1
  have h2 : a ≤ (9/10 : ℚ) := h2
  have hcl : lsp_limit a 0 1 = a := by
    unfold lsp_limit
    rw [if_neg (by linarith), if_neg (by linarith)]
  constructor
  · unfold mm_den1
    rw [hcl]
    intro hc
    rw [hc] at h1
    norm_num at h1
  · unfold mm_den2
    rw [hcl]
    intro hc
    have : a = 1 := by linarith
    rw [this] at h2
    norm_num at h2

/-- Witness for make_matrix_denominators_nonzero at a = b = 1/2. -/
theorem make_matrix_denominators_nonzero_witness :
    (SHIFT_MIN ≤ (1/2 : ℚ) ∧ (1/2 : ℚ) ≤ SHIFT_MAX) ∧
      (mm_den1 (1/2) ≠ 0 ∧ mm_den2 (1/2) ≠ 0) :=
  ⟨⟨by norm_num [SHIFT_MIN], by norm_num [SHIFT_MAX]⟩,
    make_matrix_denominators_nonzero (1/2) (1/2)
      (by norm_num [SHIFT_MIN]) (by norm_num [SHIFT_MAX])
      (by norm_num [SHIFT_MIN]) (by norm_num [SHIFT_MAX])⟩

/-! ## C4 and C5: the crossfade pipeline -/

/-- getD of a map over List.range at an in-range index. -/
theorem getD_map_range (f : ℕ → ℚ) {n p : ℕ} (hp : p < n) (d : ℚ) :
    ((List.range n).map f).getD p d = f p := by
  simp [List.getD_eq_getElem?_getD, List.getElem?_map, List.getElem?_range, hp]

/-- Clearing an already-clear crossfade flag leaves the state unchanged. -/
theorem state_clear_crossfade (st : shaper_state) (h : st.crossfade = false) :
    { st with crossfade := false } = st := by
  cases st
  simp_all

/-- With the crossfade flag clear, every sub-block is processed with the
current curve only and the state never changes. -/
theorem process_blocks_no_fade (st : shaper_state) (h : st.crossfade = false) :
    ∀ bufs : List (List ℚ),
      (process_blocks st bufs).1 =
        bufs.map (fun b => b.map (fun s => eval_equation st.roots st.order st.tangent s)) ∧
      (process_blocks st bufs).2 = st := by
  intro bufs
  induction bufs with
  | nil => simp [process_blocks]
  | cons b rest ih =>
      simp only [process_blocks, state_clear_crossfade st h, List.map_cons]
      refine ⟨?_, ih.2⟩
      rw [ih.1]
      simp [shape_block, h]

/-- C4: when a crossfade is pending, the processed value at oversampled
index j of the sub-block equals y_old + (y_new - y_old) * t with
t = j / ovs_to_do (the code computes t as j * (1 / ovs_to_do)), where y_old
is eval_equation with the old roots/order/tangent and y_new with the
current ones; in particular at j = 0 the output equals the old curve's
output exactly. -/
theorem crossfade_blend_formula (st : shaper_state) (buf : List ℚ) (j : ℕ)
    (hc : st.crossfade = true) (hj : j < buf.length) :
    (shape_block st buf).getD j 0 =
      eval_equation st.old_roots st.old_order st.old_tangent (buf.getD j 0) +
        (eval_equation st.roots st.order st.tangent (buf.getD j 0) -
          eval_equation st.old_roots st.old_order st.old_tangent (buf.getD j 0)) *
        ((j : ℚ) / (buf.length : ℚ)) ∧
      (shape_block st buf).getD 0 0 =
        eval_equation st.old_roots st.old_order st.old_tangent (buf.getD 0 0) := by
  have h0 : 0 < buf.length := Nat.lt_of_le_of_lt (Nat.zero_le j) hj
  constructor
  · rw [shape_block, if_pos hc, getD_map_range _ hj]
    rw [mul_one_div]
  · rw [shape_block, if_pos hc, getD_map_range _ h0]
    push_cast
    ring

/-- Witness for crossfade_blend_formula on a concrete state and buffer. -/
theorem crossfade_blend_formula_witness :
    (shaper_state.mk [1] 1 0 [0, 1] 2 1 true).crossfade = true ∧ 1 < [(1 : ℚ)/2, 2].length ∧
      ((shape_block (shaper_state.mk [1] 1 0 [0, 1] 2 1 true) [(1 : ℚ)/2, 2]).getD 1 0 =
        eval_equation [1] 1 0 ([(1 : ℚ)/2, 2].getD 1 0) +
          (eval_equation [0, 1] 2 1 ([(1 : ℚ)/2, 2].getD 1 0) -
            eval_equation [1] 1 0 ([(1 : ℚ)/2, 2].getD 1 0)) *
          ((1 : ℚ) / ([(1 : ℚ)/2, 2].length : ℚ)) ∧
        (shape_block (shaper_state.mk [1] 1 0 [0, 1] 2 1 true) [(1 : ℚ)/2, 2]).getD 0 0 =
          eval_equation [1] 1 0 ([(1 : ℚ)/2, 2].getD 0 0)) :=
  ⟨rfl, by norm_num,
    crossfade_blend_formula (shaper_state.mk [1] 1 0 [0, 1] 2 1 true)
      [(1 : ℚ)/2, 2] 1 rfl (by norm_num)⟩

/-- Every sub-block size taken by the process loop is at most BUFFER_SIZE. -/
theorem chunk_sizes_le (samples : ℕ) : ∀ c ∈ chunk_sizes samples, c ≤ BUFFER_SIZE := by
  induction samples using Nat.strong_induction_on with
  | _ s ih =>
      rw [chunk_sizes]
      by_cases h : s = 0
      · simp [h]
      · rw [dif_neg h]
        intro c hc
        rcases List.mem_cons.mp hc with hc | hc
        · subst hc
          exact Nat.min_le_right s BUFFER_SIZE
        · have h1 : 0 < s := Nat.pos_of_ne_zero h
          have h2 : 0 < BUFFER_SIZE := by norm_num [BUFFER_SIZE]
          have hmin : 0 < Nat.min s BUFFER_SIZE := Nat.lt_min.mpr ⟨h1, h2⟩
          exact ih _ (Nat.sub_lt h1 hmin) c hc

/-- C5: within a single process call whose state begins with the crossfade
flag set, only the first sub-block (whose size is at most BUFFER_SIZE = 512
input samples) receives the old/new blend: the first output block is the
blended shape_block, the flag is false in the resulting state, and every
subsequent sub-block is processed with the current curve only. -/
theorem crossfade_single_subblock (st : shaper_state) (hc : st.crossfade = true)
    (b : List ℚ) (rest : List (List ℚ)) :
    (process_blocks st (b :: rest)).1 =
      shape_block st b ::
        rest.map (fun buf => buf.map (fun s => eval_equation st.roots st.order st.tangent s)) ∧
      shape_block st b =
        (List.range b.length).map (fun j =>
          eval_equation st.old_roots st.old_order st.old_tangent (b.getD j 0) +
            (eval_equation st.roots st.order st.tangent (b.getD j 0) -
              eval_equation st.old_roots st.old_order st.old_tangent (b.getD j 0)) *
            ((j : ℚ) * (1 / (b.length : ℚ)))) ∧
      (process_blocks st (b :: rest)).2.crossfade = false ∧
      (∀ samples : ℕ, ∀ c ∈ chunk_sizes samples, c ≤ BUFFER_SIZE) := by
  have hrest := process_blocks_no_fade { st with crossfade := false } rfl rest
  refine ⟨?_, ?_, ?_, fun samples => chunk_sizes_le samples⟩
  · simp only [process_blocks]
    rw [hrest.1]
  · rw [shape_block, if_pos hc]
  · simp only [process_blocks]
    rw [hrest.2]

/-- Witness for crossfade_single_subblock on a concrete state and buffers. -/
theorem crossfade_single_subblock_witness :
    (shaper_state.mk [1] 1 0 [0, 1] 2 1 true).crossfade = true ∧
      ((process_blocks (shaper_state.mk [1] 1 0 [0, 1] 2 1 true) [[(1 : ℚ)/2], [2]]).1 =
        shape_block (shaper_state.mk [1] 1 0 [0, 1] 2 1 true) [(1 : ℚ)/2] ::
          [[(2 : ℚ)]].map (fun buf => buf.map (fun s => eval_equation [0, 1] 2 1 s)) ∧
        shape_block (shaper_state.mk [1] 1 0 [0, 1] 2 1 true) [(1 : ℚ)/2] =
          (List.range [(1 : ℚ)/2].length).map (fun j =>
            eval_equation [1] 1 0 ([(1 : ℚ)/2].getD j 0) +
              (eval_equation [0, 1] 2 1 ([(1 : ℚ)/2].getD j 0) -
                eval_equation [1] 1 0 ([(1 : ℚ)/2].getD j 0)) *
              ((j : ℚ) * (1 / ([(1 : ℚ)/2].length : ℚ)))) ∧
        (process_blocks (shaper_state.mk [1] 1 0 [0, 1] 2 1 true) [[(1 : ℚ)/2], [2]]).2.crossfade
          = false ∧
        (∀ samples : ℕ, ∀ c ∈ chunk_sizes samples, c ≤ BUFFER_SIZE)) :=
  ⟨rfl, crossfade_single_subblock (shaper_state.mk [1] 1 0 [0, 1] 2 1 true) rfl
    [(1 : ℚ)/2] [[2]]⟩

/-! ## C3 and C8: correctness of the linear-system solver

The development follows the C control flow: `tri_step` is one iteration of
the triangulation loop (conditional pivot swap followed by elimination of
column i+1 from all rows above row i), `tri_loop` the loop from counter
n-1 down to 1.  `Inv M n i` is the shape invariant holding when the counter
has reached i; the row operations preserve the solution sets of both the
inhomogeneous (`Sats`) and homogeneous (`HSats`) systems. -/

/-- A successful pivot search returns a row above i with a nonzero entry in
column i+1. -/
theorem find_swap_some {M : ℕ → ℕ → ℚ} {i a : ℕ} (h : find_swap M i = some a) :
    a < i ∧ M a (i + 1) ≠ 0 := by
  unfold find_swap at h
  have hp := List.find?_some h
  have hm := List.mem_of_find?_eq_some h
  rw [List.mem_reverse, List.mem_range] at hm
  simp only [decide_eq_true_eq] at hp
  exact ⟨hm, hp⟩

/-- A failed pivot search means every row above i has a zero entry in
column i+1. -/
theorem find_swap_none {M : ℕ → ℕ → ℚ} {i : ℕ} (h : find_swap M i = none) :
    ∀ a, a < i → M a (i + 1) = 0 := by
  intro a ha
  unfold find_swap at h
  have := List.find?_eq_none.mp h a (by rw [List.mem_reverse, List.mem_range]; exact ha)
  simpa using this

/-- After the conditional swap, any nonzero entry in column i+1 above row i
forces the pivot of row i to be nonzero. -/
theorem pivot_swap_pivot {M : ℕ → ℕ → ℚ} {n i a : ℕ} (hin : i < n) (ha : a < i)
    (hne : pivot_swap n i M a (i + 1) ≠ 0) : pivot_swap n i M i (i + 1) ≠ 0 := by
  unfold pivot_swap at hne ⊢
  by_cases hp : M i (i + 1) = 0
  · rw [if_pos hp] at hne ⊢
    cases hfs : find_swap M i with
    | none =>
        rw [hfs] at hne
        exact absurd (find_swap_none hfs a ha) hne
    | some a0 =>
        obtain ⟨ha0, hne0⟩ := find_swap_some hfs
        have hc : i + 1 < n + 1 := by omega
        show swap_row M i a0 (n + 1) i (i + 1) ≠ 0
        unfold swap_row
        rw [if_pos hc, if_pos rfl]
        exact hne0
  · rw [if_neg hp]
    exact hp

/-- Swapping two rows with indices at most k preserves the shape
invariant. -/
theorem swap_row_inv {M : ℕ → ℕ → ℚ} {n k p q : ℕ} (_hk : k < n)
    (hp : p ≤ k) (hq : q ≤ k) (h : Inv M n k) : Inv (swap_row M p q (n + 1)) n k := by
  intro a c han hcn hkc hac
  unfold swap_row
  rw [if_pos (by omega : c < n + 1)]
  by_cases hap : a = p
  · rw [if_pos hap]
    exact h q c (by omega) hcn hkc (by omega)
  · rw [if_neg hap]
    by_cases haq : a = q
    · rw [if_pos haq]
      exact h p c (by omega) hcn hkc (by omega)
    · rw [if_neg haq]
      exact h a c han hcn hkc hac

/-- The conditional pivot swap preserves the shape invariant. -/
theorem pivot_swap_inv {M : ℕ → ℕ → ℚ} {n i : ℕ} (hin : i < n) (h : Inv M n i) :
    Inv (pivot_swap n i M) n i := by
  unfold pivot_swap
  by_cases hp : M i (i + 1) = 0
  · rw [if_pos hp]
    cases hfs : find_swap M i with
    | none => exact h
    | some a0 =>
        obtain ⟨ha0, _⟩ := find_swap_some hfs
        exact swap_row_inv hin (le_refl i) (by omega) h
  · rw [if_neg hp]
    exact h

/-- One triangulation step advances the shape invariant from counter k+1 to
counter k. -/
theorem tri_step_inv {M : ℕ → ℕ → ℚ} {n k : ℕ} (h2 : k + 1 < n)
    (h : Inv M n (k + 1)) : Inv (tri_step n (k + 1) M) n k := by
  have hInvN : Inv (pivot_swap n (k + 1) M) n (k + 1) := pivot_swap_inv (by omega) h
  set N := pivot_swap n (k + 1) M with hN
  intro a c han hcn hkc hac
  show (if a < k + 1 ∧ N a (k + 2) ≠ 0 ∧ c < k + 3 then
      N a c - (N a (k + 2) / N (k + 1) (k + 2)) * N (k + 1) c else N a c) = 0
  by_cases hcond : a < k + 1 ∧ N a (k + 2) ≠ 0 ∧ c < k + 3
  · rw [if_pos hcond]
    have hc : c = k + 2 := by omega
    subst hc
    have hpiv : N (k + 1) (k + 2) ≠ 0 := pivot_swap_pivot (by omega) hcond.1 hcond.2.1
    rw [div_mul_cancel₀ _ hpiv]
    ring
  · rw [if_neg hcond]
    by_cases hc3 : k + 3 ≤ c
    · exact hInvN a c han hcn hc3 hac
    · have hc : c = k + 2 := by omega
      subst hc
      push_neg at hcond
      by_cases ha1 : a < k + 1
      · by_cases hz : N a (k + 2) = 0
        · exact hz
        · exact absurd (hcond ha1 hz) (by omega)
      · exfalso
        omega

/-- Swapping the first rs entries of two rows twice restores the matrix. -/
theorem swap_row_involutive (M : ℕ → ℕ → ℚ) (p q rs : ℕ) :
    swap_row (swap_row M p q rs) p q rs = M := by
  funext a c
  unfold swap_row
  by_cases hc : c < rs
  · simp only [if_pos hc]
    by_cases hap : a = p <;> by_cases haq : a = q <;> by_cases hqp : q = p <;> simp_all
  · simp only [if_neg hc]

/-- A solution of every row equation still satisfies them after a row swap
(rows p, q < n). -/
theorem Sats_swap_row {M : ℕ → ℕ → ℚ} {n p q : ℕ} (hp : p < n) (hq : q < n)
    {y : ℕ → ℚ} (h : Sats M n y) : Sats (swap_row M p q (n + 1)) n y := by
  intro a ha
  have hval : ∀ c, c ≤ n → swap_row M p q (n + 1) a c =
      M (if a = p then q else if a = q then p else a) c := by
    intro c hc
    unfold swap_row
    rw [if_pos (by omega : c < n + 1)]
    by_cases hap : a = p
    · rw [if_pos hap, if_pos hap]
    · rw [if_neg hap, if_neg hap]
      by_cases haq : a = q
      · rw [if_pos haq, if_pos haq]
      · rw [if_neg haq, if_neg haq]
  have hsum : row_sum (swap_row M p q (n + 1)) n a y =
      row_sum M n (if a = p then q else if a = q then p else a) y := by
    unfold row_sum
    refine Finset.sum_congr rfl fun j hj => ?_
    rw [hval (j + 1) (by have := Finset.mem_range.mp hj; omega)]
  rw [hsum, hval 0 (by omega)]
  exact h _ (by split <;> [exact hq; (split <;> [exact hp; exact ha])])

/-- Row swaps preserve the solution set of the augmented system. -/
theorem Sats_swap_row_iff {M : ℕ → ℕ → ℚ} {n p q : ℕ} (hp : p < n) (hq : q < n)
    (y : ℕ → ℚ) : Sats (swap_row M p q (n + 1)) n y ↔ Sats M n y := by
  constructor
  · intro h
    have := Sats_swap_row hp hq h
    rwa [swap_row_involutive] at this
  · exact Sats_swap_row hp hq

/-- A solution of the homogeneous system still satisfies it after a row
swap. -/
theorem HSats_swap_row {M : ℕ → ℕ → ℚ} {n p q : ℕ} (hp : p < n) (hq : q < n)
    {y : ℕ → ℚ} (h : HSats M n y) : HSats (swap_row M p q (n + 1)) n y := by
  intro a ha
  have hsum : row_sum (swap_row M p q (n + 1)) n a y =
      row_sum M n (if a = p then q else if a = q then p else a) y := by
    unfold row_sum
    refine Finset.sum_congr rfl fun j hj => ?_
    have hc : j + 1 < n + 1 := by have := Finset.mem_range.mp hj; omega
    unfold swap_row
    rw [if_pos hc]
    by_cases hap : a = p
    · rw [if_pos hap, if_pos hap]
    · rw [if_neg hap, if_neg hap]
      by_cases haq : a = q
      · rw [if_pos haq, if_pos haq]
      · rw [if_neg haq, if_neg haq]
  rw [hsum]
  exact h _ (by split <;> [exact hq; (split <;> [exact hp; exact ha])])

/-- Row swaps preserve the solution set of the homogeneous system. -/
theorem HSats_swap_row_iff {M : ℕ → ℕ → ℚ} {n p q : ℕ} (hp : p < n) (hq : q < n)
    (y : ℕ → ℚ) : HSats (swap_row M p q (n + 1)) n y ↔ HSats M n y := by
  constructor
  · intro h
    have := HSats_swap_row hp hq h
    rwa [swap_row_involutive] at this
  · exact HSats_swap_row hp hq

/-- Under the shape invariant, the elimination step subtracts qcoef times
row i from every row in every column c ≤ n (the columns it does not touch
are zero in both rows). -/
theorem elim_rows_apply {N : ℕ → ℕ → ℚ} {n i : ℕ} (hInv : Inv N n i) (hin : i < n)
    (a c : ℕ) (hcn : c ≤ n) :
    elim_rows i N a c = N a c - qcoef i N a * N i c := by
  unfold elim_rows qcoef
  by_cases h : a < i ∧ N a (i + 1) ≠ 0
  · rw [if_pos h]
    by_cases hc : c < i + 2
    · rw [if_pos ⟨h.1, h.2, hc⟩]
    · rw [if_neg (by tauto)]
      have hz : N i c = 0 := hInv i c hin hcn (by omega) (by omega)
      rw [hz]
      ring
  · rw [if_neg (by tauto), if_neg h]
    ring

/-- The row functional after elimination, as a linear combination of the
row functionals before it. -/
theorem row_sum_elim {N : ℕ → ℕ → ℚ} {n i : ℕ} (hInv : Inv N n i) (hin : i < n)
    (a : ℕ) (y : ℕ → ℚ) :
    row_sum (elim_rows i N) n a y = row_sum N n a y - qcoef i N a * row_sum N n i y := by
  unfold row_sum
  rw [Finset.mul_sum, ← Finset.sum_sub_distrib]
  refine Finset.sum_congr rfl fun j hj => ?_
  have hc : j + 1 ≤ n := by have := Finset.mem_range.mp hj; omega
  rw [elim_rows_apply hInv hin a (j + 1) hc]
  ring

/-- The elimination step preserves the solution set of the augmented
system. -/
theorem Sats_elim_rows_iff {N : ℕ → ℕ → ℚ} {n i : ℕ} (hInv : Inv N n i) (hin : i < n)
    (y : ℕ → ℚ) : Sats (elim_rows i N) n y ↔ Sats N n y := by
  have hrow0 : ∀ a, elim_rows i N a 0 = N a 0 - qcoef i N a * N i 0 := fun a =>
    elim_rows_apply hInv hin a 0 (by omega)
  have hq : qcoef i N i = 0 := by
    unfold qcoef
    rw [if_neg (by simp)]
  constructor
  · intro hE
    have hrowi : row_sum N n i y = N i 0 := by
      have := hE i hin
      rw [row_sum_elim hInv hin i y, hrow0 i, hq] at this
      linarith
    intro a ha
    have := hE a ha
    rw [row_sum_elim hInv hin a y, hrow0 a, hrowi] at this
    linarith
  · intro hS a ha
    rw [row_sum_elim hInv hin a y, hrow0 a, hS a ha, hS i hin]

/-- The elimination step preserves the solution set of the homogeneous
system. -/
theorem HSats_elim_rows_iff {N : ℕ → ℕ → ℚ} {n i : ℕ} (hInv : Inv N n i) (hin : i < n)
    (y : ℕ → ℚ) : HSats (elim_rows i N) n y ↔ HSats N n y := by
  have hq : qcoef i N i = 0 := by
    unfold qcoef
    rw [if_neg (by simp)]
  constructor
  · intro hE
    have hrowi : row_sum N n i y = 0 := by
      have := hE i hin
      rw [row_sum_elim hInv hin i y, hq] at this
      linarith
    intro a ha
    have := hE a ha
    rw [row_sum_elim hInv hin a y, hrowi] at this
    linarith
  · intro hS a ha
    rw [row_sum_elim hInv hin a y, hS a ha, hS i hin]
    ring

/-- The conditional pivot swap preserves the solution set of the augmented
system. -/
theorem Sats_pivot_swap_iff {M : ℕ → ℕ → ℚ} {n i : ℕ} (hin : i < n) (y : ℕ → ℚ) :
    Sats (pivot_swap n i M) n y ↔ Sats M n y := by
  unfold pivot_swap
  by_cases hp : M i (i + 1) = 0
  · rw [if_pos hp]
    cases hfs : find_swap M i with
    | none => exact Iff.rfl
    | some a0 =>
        obtain ⟨ha0, _⟩ := find_swap_some hfs
        exact Sats_swap_row_iff hin (by omega) y
  · rw [if_neg hp]

/-- The conditional pivot swap preserves the solution set of the
homogeneous system. -/
theorem HSats_pivot_swap_iff {M : ℕ → ℕ → ℚ} {n i : ℕ} (hin : i < n) (y : ℕ → ℚ) :
    HSats (pivot_swap n i M) n y ↔ HSats M n y := by
  unfold pivot_swap
  by_cases hp : M i (i + 1) = 0
  · rw [if_pos hp]
    cases hfs : find_swap M i with
    | none => exact Iff.rfl
    | some a0 =>
        obtain ⟨ha0, _⟩ := find_swap_some hfs
        exact HSats_swap_row_iff hin (by omega) y
  · rw [if_neg hp]

/-- One triangulation step preserves the solution set of the augmented
system. -/
theorem Sats_tri_step_iff {M : ℕ → ℕ → ℚ} {n i : ℕ} (hInv : Inv M n i) (hin : i < n)
    (y : ℕ → ℚ) : Sats (tri_step n i M) n y ↔ Sats M n y := by
  unfold tri_step
  exact (Sats_elim_rows_iff (pivot_swap_inv hin hInv) hin y).trans
    (Sats_pivot_swap_iff hin y)

/-- One triangulation step preserves the solution set of the homogeneous
system. -/
theorem HSats_tri_step_iff {M : ℕ → ℕ → ℚ} {n i : ℕ} (hInv : Inv M n i) (hin : i < n)
    (y : ℕ → ℚ) : HSats (tri_step n i M) n y ↔ HSats M n y := by
  unfold tri_step
  exact (HSats_elim_rows_iff (pivot_swap_inv hin hInv) hin y).trans
    (HSats_pivot_swap_iff hin y)

/-- Master induction over the triangulation loop: it reaches the final
triangular shape and preserves both solution sets. -/
theorem tri_loop_master {n : ℕ} :
    ∀ k (M : ℕ → ℕ → ℚ), k < n → Inv M n k →
      Inv (tri_loop n k M) n 0 ∧
      (∀ y, Sats (tri_loop n k M) n y ↔ Sats M n y) ∧
      (∀ y, HSats (tri_loop n k M) n y ↔ HSats M n y) := by
  intro k
  induction k with
  | zero => exact fun M _ h => ⟨h, fun _ => Iff.rfl, fun _ => Iff.rfl⟩
  | succ k ih =>
      intro M hk hInv
      have hInv' : Inv (tri_step n (k + 1) M) n k := tri_step_inv hk hInv
      obtain ⟨h1, h2, h3⟩ := ih (tri_step n (k + 1) M) (by omega) hInv'
      exact ⟨h1, fun y => (h2 y).trans (Sats_tri_step_iff hInv hk y),
        fun y => (h3 y).trans (HSats_tri_step_iff hInv hk y)⟩

/-- The shape invariant holds vacuously at loop entry (counter n-1). -/
theorem Inv_start (M : ℕ → ℕ → ℚ) (n : ℕ) : Inv M n (n - 1) := by
  intro a c han hcn hic hac
  omega

/-- triangulate_matrix produces a lower-triangular system and preserves
both solution sets. -/
theorem triangulate_props (M : ℕ → ℕ → ℚ) {n : ℕ} (hn : 1 ≤ n) :
    Inv (triangulate_matrix M n) n 0 ∧
      (∀ y, Sats (triangulate_matrix M n) n y ↔ Sats M n y) ∧
      (∀ y, HSats (triangulate_matrix M n) n y ↔ HSats M n y) :=
  tri_loop_master (n - 1) M (by omega) (Inv_start M n)

/-- build_list produces a list of the requested length. -/
theorem build_list_length (F : ℕ → List ℚ → ℚ) (m : ℕ) :
    (build_list F m).length = m := by
  induction m with
  | zero => rfl
  | succ m ih => simp [build_list, ih]

/-- Entries of build_list are stable under extending the list. -/
theorem build_list_getD_stable (F : ℕ → List ℚ → ℚ) (i m k : ℕ)
    (him : i < m) (hmk : m ≤ k) :
    (build_list F k).getD i 0 = (build_list F m).getD i 0 := by
  induction k with
  | zero => omega
  | succ k ih =>
      by_cases hmk1 : m = k + 1
      · rw [hmk1]
      · rw [build_list, List.getD_append _ _ _ _ (by rw [build_list_length]; omega)]
        exact ih (by omega)

/-- The last entry of build_list is produced by F from the previous ones. -/
theorem build_list_getD_last (F : ℕ → List ℚ → ℚ) (m : ℕ) :
    (build_list F (m + 1)).getD m 0 = F m (build_list F m) := by
  rw [build_list]
  have hl : (build_list F m).length = m := build_list_length F m
  rw [List.getD_append_right _ _ _ _ (by omega), hl]
  simp

/-- The defining recurrence of solve_matrix's iteration i: the value stored
at v[n-i-1] is (r[0] - sum of already-solved terms) divided by the pivot
r[i+1]. -/
theorem solve_fun_spec (M : ℕ → ℕ → ℚ) {n i : ℕ} (hi : i < n) :
    solve_fun M n i =
      (M i 0 - ∑ j ∈ Finset.range i, M i (j + 1) * solve_fun M n j) / M i (i + 1) := by
  unfold solve_fun
  rw [build_list_getD_stable (solve_entry M) i (i + 1) n (by omega) (by omega),
    build_list_getD_last]
  simp only [solve_entry]
  congr 2
  refine Finset.sum_congr rfl fun j hj => ?_
  have hji : j < i := Finset.mem_range.mp hj
  rw [build_list_getD_stable (solve_entry M) j (j + 1) i (by omega) (by omega),
    ← build_list_getD_stable (solve_entry M) j (j + 1) n (by omega) (by omega)]

/-- For a lower-triangular system, the row functional of row a only
involves the first a+1 unknowns. -/
theorem row_sum_triangular {T : ℕ → ℕ → ℚ} {n a : ℕ} (hTri : Inv T n 0) (ha : a < n)
    (y : ℕ → ℚ) :
    row_sum T n a y = ∑ j ∈ Finset.range (a + 1), T a (j + 1) * y j := by
  unfold row_sum
  simp only [Finset.range_eq_Ico]
  rw [← Finset.sum_Ico_consecutive (fun j => T a (j + 1) * y j)
    (Nat.zero_le (a + 1)) (by omega : a + 1 ≤ n)]
  have hz : ∑ j ∈ Finset.Ico (a + 1) n, T a (j + 1) * y j = 0 := by
    refine Finset.sum_eq_zero fun j hj => ?_
    obtain ⟨hj1, hj2⟩ := Finset.mem_Ico.mp hj
    rw [hTri a (j + 1) ha (by omega) (by omega) (by omega)]
    ring
  rw [hz, add_zero]

/-- Back substitution solves a lower-triangular system whose pivots are all
nonzero. -/
theorem solve_sats {T : ℕ → ℕ → ℚ} {n : ℕ} (hTri : Inv T n 0)
    (hpiv : ∀ i, i < n → T i (i + 1) ≠ 0) : Sats T n (solve_fun T n) := by
  intro a ha
  rw [row_sum_triangular hTri ha, Finset.sum_range_succ, solve_fun_spec T ha,
    mul_comm, div_mul_cancel₀ _ (hpiv a ha)]
  ring

/-- Entries of the kernel vector below the zero pivot are zero. -/
theorem ker_fun_below {T : ℕ → ℕ → ℚ} {i0 n j : ℕ} (hj : j < i0) (hjn : j < n) :
    ker_fun T i0 n j = 0 := by
  unfold ker_fun
  rw [build_list_getD_stable (ker_entry T i0) j (j + 1) n (by omega) (by omega),
    build_list_getD_last]
  simp only [ker_entry]
  rw [if_pos hj]

/-- The kernel vector has a one at the zero-pivot row. -/
theorem ker_fun_at {T : ℕ → ℕ → ℚ} {i0 n : ℕ} (hi0 : i0 < n) :
    ker_fun T i0 n i0 = 1 := by
  unfold ker_fun
  rw [build_list_getD_stable (ker_entry T i0) i0 (i0 + 1) n (by omega) (by omega),
    build_list_getD_last]
  simp only [ker_entry]
  simp

/-- Above the zero pivot, the kernel vector forward-substitutes. -/
theorem ker_fun_above {T : ℕ → ℕ → ℚ} {i0 n a : ℕ} (hi0 : i0 < a) (han : a < n) :
    ker_fun T i0 n a =
      -(∑ c ∈ Finset.range a, T a (c + 1) * ker_fun T i0 n c) / T a (a + 1) := by
  unfold ker_fun
  rw [build_list_getD_stable (ker_entry T i0) a (a + 1) n (by omega) (by omega),
    build_list_getD_last]
  simp only [ker_entry]
  rw [if_neg (by omega), if_neg (by omega)]
  congr 2
  refine Finset.sum_congr rfl fun c hc => ?_
  have hca : c < a := Finset.mem_range.mp hc
  rw [build_list_getD_stable (ker_entry T i0) c (c + 1) a (by omega) (by omega),
    ← build_list_getD_stable (ker_entry T i0) c (c + 1) n (by omega) (by omega)]

/-- If a lower-triangular system has a zero pivot at row i0 and nonzero
pivots above it, ker_fun is a homogeneous solution. -/
theorem ker_fun_hsats {T : ℕ → ℕ → ℚ} {n i0 : ℕ} (hTri : Inv T n 0) (hi0 : i0 < n)
    (hz : T i0 (i0 + 1) = 0) (hmax : ∀ a, i0 < a → a < n → T a (a + 1) ≠ 0) :
    HSats T n (ker_fun T i0 n) := by
  intro a ha
  rw [row_sum_triangular hTri ha, Finset.sum_range_succ]
  rcases lt_trichotomy a i0 with hlt | heq | hgt
  · have hsum : ∑ j ∈ Finset.range a, T a (j + 1) * ker_fun T i0 n j = 0 := by
      refine Finset.sum_eq_zero fun j hj => ?_
      have hja : j < a := Finset.mem_range.mp hj
      rw [ker_fun_below (by omega) (by omega)]
      ring
    rw [hsum, ker_fun_below hlt ha]
    ring
  · subst heq
    have hsum : ∑ j ∈ Finset.range a, T a (j + 1) * ker_fun T a n j = 0 := by
      refine Finset.sum_eq_zero fun j hj => ?_
      have hja : j < a := Finset.mem_range.mp hj
      rw [ker_fun_below hja (by omega)]
      ring
    rw [hsum, hz]
    ring
  · rw [ker_fun_above hgt ha, mul_comm, div_mul_cancel₀ _ (hmax a hgt ha)]
    ring

/-- A lower-triangular system that is nonsingular has all pivots nonzero. -/
theorem pivots_nonzero {T : ℕ → ℕ → ℚ} {n : ℕ} (hTri : Inv T n 0)
    (hns : nonsingular T n) : ∀ i, i < n → T i (i + 1) ≠ 0 := by
  by_contra hcon
  push_neg at hcon
  obtain ⟨i, hi, hzi⟩ := hcon
  have hne : ((Finset.range n).filter (fun a => T a (a + 1) = 0)).Nonempty :=
    ⟨i, Finset.mem_filter.mpr ⟨Finset.mem_range.mpr hi, hzi⟩⟩
  set i0 := ((Finset.range n).filter (fun a => T a (a + 1) = 0)).max' hne with hi0def
  have hmem : i0 ∈ (Finset.range n).filter (fun a => T a (a + 1) = 0) :=
    Finset.max'_mem _ hne
  rw [Finset.mem_filter, Finset.mem_range] at hmem
  obtain ⟨hi0n, hzi0⟩ := hmem
  have hmax : ∀ a, i0 < a → a < n → T a (a + 1) ≠ 0 := by
    intro a hlt han hza
    have hmemA : a ∈ (Finset.range n).filter (fun b => T b (b + 1) = 0) :=
      Finset.mem_filter.mpr ⟨Finset.mem_range.mpr han, hza⟩
    have := Finset.le_max' _ a hmemA
    omega
  have hker := ker_fun_hsats hTri hi0n hzi0 hmax
  have h1 := hns _ hker _ hi0n
  rw [ker_fun_at hi0n] at h1
  exact one_ne_zero h1

/-- C3: for every n >= 1 and every augmented n-row matrix whose coefficient
block (columns 1..n) is nonsingular, running triangulate_matrix followed by
solve_matrix (in exact arithmetic) yields a solution vector v such that
every original row equation is satisfied: column j+1 of row a multiplies
v[n-j-1] and the row constant is the stored M a 0. -/
theorem triangulate_solve_correct (M : ℕ → ℕ → ℚ) (n : ℕ) (hn : 1 ≤ n)
    (hns : nonsingular M n) :
    ∀ a, a < n →
      ∑ j ∈ Finset.range n,
        M a (j + 1) * (solve_matrix (triangulate_matrix M n) n).getD (n - 1 - j) 0 =
      M a 0 := by
  obtain ⟨hTri, hSats_iff, hHSats_iff⟩ := triangulate_props M hn
  have hnsT : nonsingular (triangulate_matrix M n) n := by
    intro y hy j hj
    exact hns y ((hHSats_iff y).mp hy) j hj
  have hpiv := pivots_nonzero hTri hnsT
  have hsolM : Sats M n (solve_fun (triangulate_matrix M n) n) :=
    (hSats_iff _).mp (solve_sats hTri hpiv)
  intro a ha
  have hv : ∀ j, j < n →
      (solve_matrix (triangulate_matrix M n) n).getD (n - 1 - j) 0 =
        solve_fun (triangulate_matrix M n) n j := by
    intro j hj
    unfold solve_matrix
    rw [getD_map_range _ (by omega : n - 1 - j < n)]
    congr 1
    omega
  have heq := hsolM a ha
  unfold row_sum at heq
  calc ∑ j ∈ Finset.range n,
        M a (j + 1) * (solve_matrix (triangulate_matrix M n) n).getD (n - 1 - j) 0
      = ∑ j ∈ Finset.range n,
          M a (j + 1) * solve_fun (triangulate_matrix M n) n j :=
        Finset.sum_congr rfl fun j hj => by rw [hv j (Finset.mem_range.mp hj)]
    _ = M a 0 := heq

/-- Witness for triangulate_solve_correct on the concrete nonsingular
system mat_ns (n = 2). -/
theorem triangulate_solve_correct_witness :
    1 ≤ 2 ∧ nonsingular mat_ns 2 ∧
      (∀ a, a < 2 →
        ∑ j ∈ Finset.range 2,
          mat_ns a (j + 1) * (solve_matrix (triangulate_matrix mat_ns 2) 2).getD (2 - 1 - j) 0 =
        mat_ns a 0) := by
  have hns : nonsingular mat_ns 2 := by
    intro y hy j hj
    have h0 := hy 0 (by norm_num)
    have h1 := hy 1 (by norm_num)
    unfold row_sum at h0 h1
    rw [Finset.sum_range_succ, Finset.sum_range_succ, Finset.sum_range_zero] at h0 h1
    norm_num [mat_ns] at h0 h1
    interval_cases j
    · exact h0
    · exact h1
  exact ⟨by norm_num, hns, triangulate_solve_correct mat_ns 2 (by norm_num) hns⟩

/-- C8 counterexample: last_col_a and last_col_b agree on every cell of the
2-by-3 augmented layout except for the last column of row 0 (0 versus 99),
yet solve_matrix returns the same solution for both — so the constant
consumed by the back-substitution is not the last column of each row (it is
the first). -/
theorem solve_matrix_ignores_last_column :
    last_col_a 0 2 = 0 ∧ last_col_b 0 2 = 99 ∧
      last_col_a 0 0 = last_col_b 0 0 ∧ last_col_a 0 1 = last_col_b 0 1 ∧
      last_col_a 1 0 = last_col_b 1 0 ∧ last_col_a 1 1 = last_col_b 1 1 ∧
      last_col_a 1 2 = last_col_b 1 2 ∧
      solve_matrix last_col_a 2 = solve_matrix last_col_b 2 ∧
      solve_matrix last_col_a 2 = [-35, 5] := by
  refine ⟨rfl, rfl, rfl, rfl, rfl, rfl, rfl, ?_, ?_⟩ <;>
    norm_num [solve_matrix, solve_fun, build_list, solve_entry, last_col_a, last_col_b,
      Finset.sum_range_succ, Finset.sum_range_zero, List.range_succ]

/-- C8 (amended): the constraint matrix built by make_matrix for order n is
laid out as n rows of n+1 columns (all cells outside that block are zero),
with the right-hand-side constant of each row stored in the FIRST column
(column 0) of the row — and column 0 is the column consumed as the constant
by the back-substitution of solve_matrix, whose iteration-i equation reads
pivot * v[n-i-1] + sum of solved terms = r[0]. -/
theorem matrix_rhs_first_column (bc : List point_t) (np : ℕ) (a b : ℚ) (n : ℕ)
    (hn : 5 ≤ n) :
    (∀ r c, r < n → n < c → make_matrix bc np a b n r c = 0) ∧
      (∀ r c, n ≤ r → make_matrix bc np a b n r c = 0) ∧
      (∀ r, r < n → make_matrix bc np a b n r 0 = spec_row_constant bc np a b n r) ∧
      (∀ T : ℕ → ℕ → ℚ, ∀ i, i < n → T i (i + 1) ≠ 0 →
        T i (i + 1) * solve_fun T n i +
          ∑ j ∈ Finset.range i, T i (j + 1) * solve_fun T n j = T i 0) := by
  refine ⟨?_, ?_, ?_, ?_⟩
  · intro r c hr hc
    unfold make_matrix
    rw [if_neg (by omega)]
  · intro r c hr
    unfold make_matrix
    rw [if_neg (by omega)]
  · intro r hr
    unfold make_matrix spec_row_constant
    rcases r with _ | _ | _ | _ | r
    · rw [if_pos (by omega : (0 : ℕ) < n ∧ (0 : ℕ) ≤ n)]
      norm_num
    · rw [if_pos (by omega : (1 : ℕ) < n ∧ (0 : ℕ) ≤ n)]
      norm_num
    · rw [if_pos (by omega : (2 : ℕ) < n ∧ (0 : ℕ) ≤ n)]
      norm_num
    · rw [if_pos (by omega : (3 : ℕ) < n ∧ (0 : ℕ) ≤ n)]
      norm_num
    · rw [if_pos (by omega : r + 4 < n ∧ (0 : ℕ) ≤ n)]
      norm_num
  · intro T i hi hpiv
    rw [solve_fun_spec T hi, mul_comm, div_mul_cancel₀ _ hpiv]
    ring

/-- Witness for matrix_rhs_first_column at the default parameters
(hshift = vshift = 1/2, scales 1, order 5). -/
theorem matrix_rhs_first_column_witness :
    5 ≤ 5 ∧
      ((∀ r c, r < 5 → 5 < c →
          make_matrix (make_bezier (1/2) (1/2) 1 1) 4 (1/2) (1/2) 5 r c = 0) ∧
        (∀ r c, 5 ≤ r →
          make_matrix (make_bezier (1/2) (1/2) 1 1) 4 (1/2) (1/2) 5 r c = 0) ∧
        (∀ r, r < 5 →
          make_matrix (make_bezier (1/2) (1/2) 1 1) 4 (1/2) (1/2) 5 r 0 =
            spec_row_constant (make_bezier (1/2) (1/2) 1 1) 4 (1/2) (1/2) 5 r) ∧
        (∀ T : ℕ → ℕ → ℚ, ∀ i, i < 5 → T i (i + 1) ≠ 0 →
          T i (i + 1) * solve_fun T 5 i +
            ∑ j ∈ Finset.range i, T i (j + 1) * solve_fun T 5 j = T i 0)) :=
  ⟨by norm_num,
    matrix_rhs_first_column (make_bezier (1/2) (1/2) 1 1) 4 (1/2) (1/2) 5 (by norm_num)⟩

end Shaper
